import Mathlib

/-!
Shallow embedding of `CSVs/csv_normalize.py`.

Fields are `String` (lists of characters); records are `List String`.
Python's `IndexError` is modelled by `Option`: a function that can raise
returns `none` exactly when the Python code would raise.
-/

namespace CsvNormalize

/-! ### Character/string helpers modelling Python string methods -/

/-- Python `s.rstrip(c)` for a single-character strip set: remove every
trailing occurrence of `c`. -/
def rstrip (cs : List Char) (c : Char) : List Char :=
  (cs.reverse.dropWhile (fun x => x == c)).reverse

/-- Python `s.lstrip(c)` for a single-character strip set: remove every
leading occurrence of `c`. -/
def lstrip (cs : List Char) (c : Char) : List Char :=
  cs.dropWhile (fun x => x == c)

/-- The `\-{0,1}` part of the numeric regex: drop one leading minus sign
if present. -/
def stripNeg (cs : List Char) : List Char :=
  if cs.head? = some '-' then cs.tail else cs

/-- The codepoint ranges of the Unicode decimal-digit category Nd, which
is what Python's `\d` matches on `str` patterns (generated from CPython's
`re` module, Unicode 14.0). -/
def ndRanges : List (Nat × Nat) :=
  [(0x30, 0x39), (0x660, 0x669), (0x6F0, 0x6F9), (0x7C0, 0x7C9),
   (0x966, 0x96F), (0x9E6, 0x9EF), (0xA66, 0xA6F), (0xAE6, 0xAEF),
   (0xB66, 0xB6F), (0xBE6, 0xBEF), (0xC66, 0xC6F), (0xCE6, 0xCEF),
   (0xD66, 0xD6F), (0xDE6, 0xDEF), (0xE50, 0xE59), (0xED0, 0xED9),
   (0xF20, 0xF29), (0x1040, 0x1049), (0x1090, 0x1099), (0x17E0, 0x17E9),
   (0x1810, 0x1819), (0x1946, 0x194F), (0x19D0, 0x19D9), (0x1A80, 0x1A89),
   (0x1A90, 0x1A99), (0x1B50, 0x1B59), (0x1BB0, 0x1BB9), (0x1C40, 0x1C49),
   (0x1C50, 0x1C59), (0xA620, 0xA629), (0xA8D0, 0xA8D9), (0xA900, 0xA909),
   (0xA9D0, 0xA9D9), (0xA9F0, 0xA9F9), (0xAA50, 0xAA59), (0xABF0, 0xABF9),
   (0xFF10, 0xFF19), (0x104A0, 0x104A9), (0x10D30, 0x10D39),
   (0x11066, 0x1106F), (0x110F0, 0x110F9), (0x11136, 0x1113F),
   (0x111D0, 0x111D9), (0x112F0, 0x112F9), (0x11450, 0x11459),
   (0x114D0, 0x114D9), (0x11650, 0x11659), (0x116C0, 0x116C9),
   (0x11730, 0x11739), (0x118E0, 0x118E9), (0x11950, 0x11959),
   (0x11C50, 0x11C59), (0x11D50, 0x11D59), (0x11DA0, 0x11DA9),
   (0x16A60, 0x16A69), (0x16AC0, 0x16AC9), (0x16B50, 0x16B59),
   (0x1D7CE, 0x1D7FF), (0x1E140, 0x1E149), (0x1E2F0, 0x1E2F9),
   (0x1E950, 0x1E959), (0x1FBF0, 0x1FBF9)]

/-- Python's `\d` on a `str` pattern: any Unicode decimal digit (Nd). -/
def isDigitNd (c : Char) : Bool :=
  ndRanges.any (fun p => p.1 ≤ c.toNat && c.toNat ≤ p.2)

/-- Whether Python's `$` can match before the final character: a `$`
(without `MULTILINE`) matches at the end of the string or just before a
single trailing `'\n'`. -/
def endsNL (cs : List Char) : Bool :=
  cs.getLast? == some '\n'

/-- The regex `^\-{0,1}\d{1,}\.\d{0,}0$` of `do_csv_normalize`
(line 140) matched against the entire string (the `$` taken as hard end
of string): optional minus, one or more digits, a period, zero or more
digits, a final `0`. -/
def decMatchCore (cs : List Char) : Bool :=
  let t := stripNeg cs
  let ip := t.takeWhile isDigitNd
  let rest := t.dropWhile isDigitNd
  match rest with
  | c :: frac =>
    c = '.' && (!ip.isEmpty && (frac.all isDigitNd && (frac.getLast? == some '0')))
  | [] => false

/-- `re.search(r"^\-{0,1}\d{1,}\.\d{0,}0$", column)` with Python's `$`
semantics: the pattern matches the whole string, or the whole string
minus a single trailing newline. -/
def decMatch (cs : List Char) : Bool :=
  decMatchCore cs || (endsNL cs && decMatchCore cs.dropLast)

/-- Lines 142-144 of `do_csv_normalize`:
`column.rstrip("0").rstrip(".")` guarded by the regex above.  The strip
is applied to the whole column, trailing newline included. -/
def decimal_trim (cs : List Char) : List Char :=
  if decMatch cs then rstrip (rstrip cs '0') '.' else cs

/-- String-level decimal trim. -/
def decimal_trimS (s : String) : String :=
  String.mk (decimal_trim s.data)

/-- The regex `^(\d{1,2})\/(\d{1,2})\/(\d{4})$` of `normalize_date`
matched against the entire string, returning the three captured groups
on success. -/
def dateMatch1Core (cs : List Char) : Option (List Char × List Char × List Char) :=
  let m := cs.takeWhile isDigitNd
  let r1 := cs.dropWhile isDigitNd
  match r1 with
  | c1 :: r2 =>
    if c1 = '/' then
      let d := r2.takeWhile isDigitNd
      let r3 := r2.dropWhile isDigitNd
      match r3 with
      | c2 :: y =>
        if c2 = '/' then
          if (1 ≤ m.length && m.length ≤ 2) && ((1 ≤ d.length && d.length ≤ 2)
              && (y.length == 4 && y.all isDigitNd)) then
            some (m, d, y)
          else none
        else none
      | [] => none
    else none
  | [] => none

/-- `re.search(r"^(\d{1,2})\/(\d{1,2})\/(\d{4})$", column)` with
Python's `$` semantics: the pattern may also match the string minus a
single trailing newline (the captured groups then exclude it). -/
def dateMatch1 (cs : List Char) : Option (List Char × List Char × List Char) :=
  match dateMatch1Core cs with
  | some r => some r
  | none => if cs.getLast? = some '\n' then dateMatch1Core cs.dropLast else none

/-- The regex `^(\d{4})\-(\d{1,2})\-(\d{1,2})$` of `normalize_date`
matched against the entire string, returning the three captured groups
on success. -/
def dateMatch2Core (cs : List Char) : Option (List Char × List Char × List Char) :=
  let y := cs.takeWhile isDigitNd
  let r1 := cs.dropWhile isDigitNd
  match r1 with
  | c1 :: r2 =>
    if c1 = '-' then
      let m := r2.takeWhile isDigitNd
      let r3 := r2.dropWhile isDigitNd
      match r3 with
      | c2 :: d =>
        if c2 = '-' then
          if (y.length == 4) && ((1 ≤ m.length && m.length ≤ 2)
              && ((1 ≤ d.length && d.length ≤ 2) && d.all isDigitNd)) then
            some (y, m, d)
          else none
        else none
      | [] => none
    else none
  | [] => none

/-- `re.search(r"^(\d{4})\-(\d{1,2})\-(\d{1,2})$", column)` with
Python's `$` semantics, as for the first date pattern. -/
def dateMatch2 (cs : List Char) : Option (List Char × List Char × List Char) :=
  match dateMatch2Core cs with
  | some r => some r
  | none => if cs.getLast? = some '\n' then dateMatch2Core cs.dropLast else none

/-- `normalize_date` on character lists: try the `MM/DD/YYYY` shape, then
the `YYYY-MM-DD` shape; on a match rebuild
`f"{month}/{day}/{year}"` with `lstrip("0")` on month and day and
`year[2:]`; otherwise return the field unchanged. -/
def normalizeDateL (cs : List Char) : List Char :=
  match dateMatch1 cs with
  | some (m, d, y) => lstrip m '0' ++ '/' :: (lstrip d '0' ++ '/' :: y.drop 2)
  | none =>
    match dateMatch2 cs with
    | some (y, m, d) => lstrip m '0' ++ '/' :: (lstrip d '0' ++ '/' :: y.drop 2)
    | none => cs

/-- `normalize_date` of the source, on `String`. -/
def normalize_date (s : String) : String :=
  String.mk (normalizeDateL s.data)

/-- The per-field body of the data-row loop of `do_csv_normalize`
(lines 140-152): decimal trim, then either the negative-zero replacement
(when `re.search(r"^\-0$", column)` fires, i.e. the trimmed field is
`-0` or `-0` plus a trailing newline) or date normalization. -/
def normalizeFieldL (cs : List Char) : List Char :=
  let c1 := decimal_trim cs
  if c1 = ['-', '0'] ∨ c1 = ['-', '0', '\n'] then ['0'] else normalizeDateL c1

/-- Field normalization on `String`. -/
def normalize_field (s : String) : String :=
  String.mk (normalizeFieldL s.data)

/-! ### Row transformations -/

/-- `reorder_columns_in_row`: build a new row by reading
`row[column]` for each configured column index; an out-of-range index
raises `IndexError`, modelled as `none`. -/
def reorder_columns_in_row (row : List String) (arg_new_columns : List Nat) :
    Option (List String) :=
  match arg_new_columns with
  | [] => some []
  | i :: rest =>
    match row[i]? with
    | some v => (reorder_columns_in_row row rest).map (fun tl => v :: tl)
    | none => none

/-- Python `s.replace(old, new)` on character lists: replace every
non-overlapping occurrence of `pat`, left to right.  An empty `pat`
inserts `rep` before every character and at the end, as in Python. -/
def replaceAllL (pat rep : List Char) (s : List Char) : List Char :=
  match hp : pat with
  | [] => rep ++ s.flatMap (fun c => c :: rep)
  | _ :: _ =>
    match s with
    | [] => []
    | c :: rest =>
      if pat.isPrefixOf (c :: rest) then
        rep ++ replaceAllL pat rep ((c :: rest).drop pat.length)
      else
        c :: replaceAllL pat rep rest
termination_by s.length
decreasing_by
  · subst hp
    simp only [List.length_drop, List.length_cons]
    omega
  · simp

/-- Python `s.replace(old, new)` on `String`. -/
def replaceAll (s pat rep : String) : String :=
  String.mk (replaceAllL pat.data rep.data s.data)

/-- `rename_columns`: in every field of the (header) row, apply each
rename pair in order as a chained substring replacement. -/
def rename_columns (row : List String) (arg_column_renames : List (String × String)) :
    List String :=
  row.map (fun column =>
    arg_column_renames.foldl (fun c p => replaceAll c p.1 p.2) column)

/-- `collapse_columns`: for each pair `(s, t)` in order, set
`row[t] = "" if row[s] == row[t] else row[t]` on the mutating row.
Reading an out-of-range index raises `IndexError`, modelled as `none`. -/
def collapse_columns (row : List String) (column_collapse_pairs : List (Nat × Nat)) :
    Option (List String) :=
  match column_collapse_pairs with
  | [] => some row
  | (s, t) :: rest =>
    match row[s]?, row[t]? with
    | some vs, some vt =>
      collapse_columns (row.set t (if vs = vt then "" else vt)) rest
    | _, _ => none

/-! ### Sorting -/

instance decRelStringLe : DecidableRel (fun a b : String => a ≤ b) :=
  fun a b => decidable_of_iff (a.data ≤ b.data) String.le_iff_toList_le.symm

instance decRelStringGe : DecidableRel (fun a b : String => b ≤ a) :=
  fun a b => decidable_of_iff (b.data ≤ a.data) String.le_iff_toList_le.symm

instance totalStringGe : IsTotal String (fun a b : String => b ≤ a) :=
  ⟨fun a b => le_total b a⟩

instance transStringGe : IsTrans String (fun a b : String => b ≤ a) :=
  ⟨fun _ _ _ hab hbc => le_trans hbc hab⟩

/-- `csv_sort`: keep `rows[0]` (the header line) in place and sort the
remaining lines, descending when `reverse` is true.  On an empty file,
`rows[0]` raises `IndexError`, modelled as `none`.  Python's `sorted` is
modelled by a stable insertion sort under the corresponding order. -/
def csv_sort (rows : List String) (reverse : Bool) : Option (List String) :=
  match rows with
  | [] => none
  | r0 :: rest =>
    some (r0 ::
      (if reverse then List.insertionSort (fun a b : String => b ≤ a) rest
       else List.insertionSort (fun a b : String => a ≤ b) rest))

/-! ### The full normalization run -/

/-- The three recognized keys of the `column_options` dict of
`do_csv_normalize`; a `none` field models an absent key. -/
structure ColumnOptions where
  column_renames : Option (List (String × String))
  column_collapse_pairs : Option (List (Nat × Nat))
  new_columns : Option (List Nat)

/-- csv.writer quotes a field that contains the delimiter, the quote
character, or a line-terminator character. -/
def needsQuoting (s : String) : Bool :=
  s.data.any (fun c => c == ',' || c == '"' || c == '\r' || c == '\n')

/-- csv.writer doubles embedded quote characters inside a quoted field. -/
def escapeQuotes (s : String) : String :=
  String.mk (s.data.flatMap (fun c => if c == '"' then ['"', '"'] else [c]))

/-- One output field as csv.writer renders it. -/
def csv_quote_field (s : String) : String :=
  if needsQuoting s then "\"" ++ escapeQuotes s ++ "\"" else s

/-- One output line as csv.writer renders it: comma-joined fields plus the
default `\r\n` terminator. -/
def serialize_row (r : List String) : String :=
  String.intercalate "," (r.map csv_quote_field) ++ "\r\n"

/-- Header-row branch of `do_csv_normalize` (lines 168-173): rename when
configured, then reorder when configured. -/
def processHeaderRow (opts : ColumnOptions) (row : List String) : Option (List String) :=
  let r := match opts.column_renames with
    | some rs => rename_columns row rs
    | none => row
  match opts.new_columns with
  | some idx => reorder_columns_in_row r idx
  | none => some r

/-- Data-row branch of `do_csv_normalize` (lines 137-167): normalize every
field, then collapse when configured, then reorder when configured. -/
def processDataRow (opts : ColumnOptions) (row : List String) : Option (List String) :=
  let nr := row.map normalize_field
  match (match opts.column_collapse_pairs with
         | some ps => collapse_columns nr ps
         | none => some nr) with
  | some nr2 =>
    match opts.new_columns with
    | some idx => reorder_columns_in_row nr2 idx
    | none => some nr2
  | none => none

/-- `do_csv_normalize` as a function from the parsed input rows and the
per-run options to the lines of the final sorted artifact: the first row
is the header, every later row is a data row, the written lines are then
sorted by `csv_sort(out, out_sorted, reverse=True)` (line 185). -/
def do_csv_normalize (rows : List (List String)) (opts : ColumnOptions) :
    Option (List String) :=
  match rows with
  | [] => csv_sort [] true
  | h :: data =>
    match processHeaderRow opts h, data.mapM (processDataRow opts) with
    | some h2, some d2 => csv_sort ((h2 :: d2).map serialize_row) true
    | _, _ => none

/-! ### Spec-side shape predicates

These follow the spec's verbal descriptions of the anchored patterns, to be
compared with the regex implementations above. -/

/-- The spec's decimal-trim pattern, in words: "optional leading minus
sign, one-or-more digits, a literal period, zero-or-more digits, ending
in the digit 0", anchored at both ends (digits being Unicode decimal
digits, as for Python's `\d`). -/
def specDecimalShape (cs : List Char) : Prop :=
  ∃ neg ip frac, cs = neg ++ ip ++ '.' :: frac ∧
    (neg = [] ∨ neg = ['-']) ∧ ip ≠ [] ∧ (∀ a ∈ ip, isDigitNd a = true) ∧
    (∀ a ∈ frac, isDigitNd a = true) ∧ frac.getLast? = some '0'

/-- The spec's first whole-field date shape: month and day of one or two
digits separated by slashes, then a four-digit year. -/
def dateShape1 (cs : List Char) : Prop :=
  ∃ m d y, cs = m ++ '/' :: (d ++ '/' :: y) ∧
    (∀ a ∈ m, isDigitNd a = true) ∧ 1 ≤ m.length ∧ m.length ≤ 2 ∧
    (∀ a ∈ d, isDigitNd a = true) ∧ 1 ≤ d.length ∧ d.length ≤ 2 ∧
    (∀ a ∈ y, isDigitNd a = true) ∧ y.length = 4

/-- The spec's second whole-field date shape: a four-digit year, then
month and day of one or two digits, separated by hyphens. -/
def dateShape2 (cs : List Char) : Prop :=
  ∃ y m d, cs = y ++ '-' :: (m ++ '-' :: d) ∧
    (∀ a ∈ y, isDigitNd a = true) ∧ y.length = 4 ∧
    (∀ a ∈ m, isDigitNd a = true) ∧ 1 ≤ m.length ∧ m.length ≤ 2 ∧
    (∀ a ∈ d, isDigitNd a = true) ∧ 1 ≤ d.length ∧ d.length ≤ 2

/-- A field the source's date regexes accept: one of the two whole-field
shapes, or one of them followed by a single trailing newline (Python's
`$` matches before a trailing newline). -/
def dateShapeAny (cs : List Char) : Prop :=
  dateShape1 cs ∨ dateShape2 cs ∨
    ∃ cs', cs = cs' ++ ['\n'] ∧ (dateShape1 cs' ∨ dateShape2 cs')

/-- A field on which each of the three normalization rules acts as the
identity. -/
def FixedField (cs : List Char) : Prop :=
  decimal_trim cs = cs ∧ cs ≠ ['-', '0'] ∧ cs ≠ ['-', '0', '\n'] ∧
    dateMatch1 cs = none ∧ dateMatch2 cs = none

/-! ### Generic list lemmas -/

theorem mk_data (s : String) : String.mk s.data = s :=
  rfl

theorem takeWhile_middle (p : Char → Bool) (l : List Char) (x : Char) (r : List Char)
    (hl : ∀ a ∈ l, p a = true) (hx : p x = false) :
    (l ++ x :: r).takeWhile p = l ∧ (l ++ x :: r).dropWhile p = x :: r := by
  induction l with
  | nil => simp [List.takeWhile_cons, List.dropWhile_cons, hx]
  | cons c cs ih =>
    have hc : p c = true := hl c (by simp)
    have ih' := ih (fun a ha => hl a (by simp [ha]))
    simp [List.takeWhile_cons, List.dropWhile_cons, hc, ih'.1, ih'.2]

theorem takeWhile_all (p : Char → Bool) (l : List Char)
    (hl : ∀ a ∈ l, p a = true) :
    l.takeWhile p = l ∧ l.dropWhile p = [] := by
  induction l with
  | nil => simp
  | cons c cs ih =>
    have hc : p c = true := hl c (by simp)
    have ih' := ih (fun a ha => hl a (by simp [ha]))
    simp [List.takeWhile_cons, List.dropWhile_cons, hc, ih'.1, ih'.2]

theorem dropWhile_append_cons (p : Char → Bool) (a : List Char) (x : Char) (r : List Char)
    (hx : p x = false) :
    (a ++ x :: r).dropWhile p = a.dropWhile p ++ x :: r := by
  induction a with
  | nil => simp [List.dropWhile_cons, hx]
  | cons c cs ih =>
    cases hc : p c with
    | true => simp [List.dropWhile_cons, hc, ih]
    | false => simp [List.dropWhile_cons, hc]

theorem head?_dropWhile_false (p : Char → Bool) (l : List Char) (a : Char)
    (h : (l.dropWhile p).head? = some a) : p a = false := by
  induction l with
  | nil => simp at h
  | cons c cs ih =>
    rw [List.dropWhile_cons] at h
    split at h
    · exact ih h
    · next hc =>
      simp at h
      subst h
      exact Bool.not_eq_true _ |>.mp hc

theorem exists_append_singleton_of_getLast? (l : List Char) (x : Char)
    (h : l.getLast? = some x) : ∃ l', l = l' ++ [x] := by
  induction l with
  | nil => simp at h
  | cons c cs ih =>
    cases cs with
    | nil =>
      simp [List.getLast?] at h
      exact ⟨[], by simp [h]⟩
    | cons d ds =>
      rw [List.getLast?_cons_cons] at h
      obtain ⟨l', hl⟩ := ih h
      exact ⟨c :: l', by simp [hl]⟩

/-! ### Lemmas about `rstrip` and `lstrip` -/

theorem rstrip_nil (c : Char) : rstrip [] c = [] :=
  rfl

theorem rstrip_append_cons (A : List Char) (x : Char) (B : List Char) (c : Char)
    (hx : x ≠ c) :
    rstrip (A ++ x :: B) c = A ++ x :: rstrip B c := by
  unfold rstrip
  rw [show (A ++ x :: B).reverse = B.reverse ++ x :: A.reverse by simp]
  rw [dropWhile_append_cons _ _ _ _ (by simp [hx])]
  simp

theorem rstrip_append_self (A : List Char) (c : Char) :
    rstrip (A ++ [c]) c = rstrip A c := by
  unfold rstrip
  rw [show (A ++ [c]).reverse = c :: A.reverse by simp]
  rw [List.dropWhile_cons]
  simp

theorem rstrip_eq_self (A : List Char) (c x : Char)
    (hx : A.getLast? = some x) (hneq : x ≠ c) : rstrip A c = A := by
  obtain ⟨A', hA⟩ := exists_append_singleton_of_getLast? A x hx
  subst hA
  rw [show A' ++ [x] = A' ++ x :: [] from rfl, rstrip_append_cons A' x [] c hneq]
  simp [rstrip_nil]

theorem mem_rstrip (B : List Char) (c a : Char) (h : a ∈ rstrip B c) : a ∈ B := by
  unfold rstrip at h
  rw [List.mem_reverse] at h
  have := (List.dropWhile_sublist (l := B.reverse) (fun x => x == c)).mem h
  rwa [List.mem_reverse] at this

theorem getLast?_rstrip_ne (B : List Char) (c x : Char)
    (h : (rstrip B c).getLast? = some x) : x ≠ c := by
  unfold rstrip at h
  rw [List.getLast?_reverse] at h
  have := head?_dropWhile_false (fun y => y == c) B.reverse x h
  simpa using this

theorem mem_lstrip (B : List Char) (c a : Char) (h : a ∈ lstrip B c) : a ∈ B :=
  (List.dropWhile_sublist (l := B) (fun x => x == c)).mem h

/-! ### The decimal regex against the spec's description -/

theorem getLast?_append_cons_of_ne_nil (A : List Char) (x : Char) (B : List Char)
    (hB : B ≠ []) : (A ++ x :: B).getLast? = B.getLast? := by
  rw [List.getLast?_append_of_ne_nil A (by simp)]
  cases B with
  | nil => exact absurd rfl hB
  | cons b bs => rw [List.getLast?_cons_cons]

theorem stripNeg_of_head_digit (cs : List Char)
    (h : ∀ a ∈ cs.head?, isDigitNd a = true) : stripNeg cs = cs := by
  unfold stripNeg
  cases cs with
  | nil => simp
  | cons c t =>
    have hc : isDigitNd c = true := h c (by simp)
    have : c ≠ '-' := by
      intro heq
      rw [heq] at hc
      exact absurd hc (by decide)
    simp [this]

theorem decMatchCore_sound (cs : List Char) (h : decMatchCore cs = true) :
    specDecimalShape cs := by
  simp only [decMatchCore] at h
  split at h
  case h_2 => exact absurd h (by simp)
  case h_1 c frac heq =>
    simp only [Bool.and_eq_true, decide_eq_true_eq, Bool.not_eq_true',
      List.isEmpty_eq_false, beq_iff_eq, List.all_eq_true] at h
    obtain ⟨hc, hip, hfrac, hlast⟩ := h
    subst hc
    have hsplit : stripNeg cs =
        (stripNeg cs).takeWhile isDigitNd ++ '.' :: frac := by
      conv_lhs => rw [← List.takeWhile_append_dropWhile (p := isDigitNd) (l := stripNeg cs)]
      rw [heq]
    have hipd : ∀ a ∈ (stripNeg cs).takeWhile isDigitNd, isDigitNd a = true :=
      fun a ha => List.mem_takeWhile_imp ha
    by_cases hneg : cs.head? = some '-'
    · cases cs with
      | nil => simp at hneg
      | cons c0 t =>
        simp at hneg
        subst hneg
        have ht : stripNeg ('-' :: t) = t := by simp [stripNeg]
        rw [ht] at hsplit hipd hip
        exact ⟨['-'], t.takeWhile isDigitNd, frac,
          by rw [List.cons_append]; exact congrArg _ hsplit,
          Or.inr rfl, hip, hipd, hfrac, hlast⟩
    · have ht : stripNeg cs = cs := by simp [stripNeg, hneg]
      rw [ht] at hsplit hipd hip
      exact ⟨[], cs.takeWhile isDigitNd, frac, by simpa using hsplit,
        Or.inl rfl, hip, hipd, hfrac, hlast⟩

theorem decMatchCore_complete (neg ip frac : List Char)
    (hneg : neg = [] ∨ neg = ['-']) (hip : ip ≠ [])
    (hipd : ∀ a ∈ ip, isDigitNd a = true) (hfd : ∀ a ∈ frac, isDigitNd a = true)
    (hlast : frac.getLast? = some '0') :
    decMatchCore (neg ++ ip ++ '.' :: frac) = true := by
  have hdot : isDigitNd '.' = false := by decide
  have hstrip : stripNeg (neg ++ ip ++ '.' :: frac) = ip ++ '.' :: frac := by
    rcases hneg with h | h
    · subst h
      simp only [List.nil_append]
      apply stripNeg_of_head_digit
      intro a ha
      cases ip with
      | nil => exact absurd rfl hip
      | cons c t =>
        simp at ha
        subst ha
        exact hipd c (by simp)
    · subst h
      simp [stripNeg]
  have tm := takeWhile_middle isDigitNd ip '.' frac hipd hdot
  simp only [decMatchCore]
  rw [hstrip, tm.1, tm.2]
  simp [List.isEmpty_iff, hip, List.all_eq_true, hlast]
  exact hfd

theorem decMatchCore_iff (cs : List Char) :
    decMatchCore cs = true ↔ specDecimalShape cs := by
  constructor
  · exact decMatchCore_sound cs
  · rintro ⟨neg, ip, frac, rfl, hneg, hip, hipd, hfd, hlast⟩
    exact decMatchCore_complete neg ip frac hneg hip hipd hfd hlast

theorem decMatch_iff (cs : List Char) :
    decMatch cs = true ↔
      (specDecimalShape cs ∨ ∃ cs', cs = cs' ++ ['\n'] ∧ specDecimalShape cs') := by
  simp only [decMatch, Bool.or_eq_true, Bool.and_eq_true]
  constructor
  · rintro (h | ⟨hnl, h⟩)
    · exact Or.inl (decMatchCore_sound cs h)
    · have hl : cs.getLast? = some '\n' := by simpa [endsNL] using hnl
      obtain ⟨l', hl'⟩ := exists_append_singleton_of_getLast? cs '\n' hl
      refine Or.inr ⟨l', hl', ?_⟩
      have hdl : cs.dropLast = l' := by rw [hl']; exact List.dropLast_concat
      rw [hdl] at h
      exact decMatchCore_sound l' h
  · rintro (h | ⟨cs', rfl, h⟩)
    · exact Or.inl ((decMatchCore_iff cs).mpr h)
    · refine Or.inr ⟨?_, ?_⟩
      · simp [endsNL]
      · rw [List.dropLast_concat]
        exact (decMatchCore_iff cs').mpr h

theorem decimal_trim_of_newline (cs : List Char) (h : cs.getLast? = some '\n') :
    decimal_trim cs = cs := by
  unfold decimal_trim
  split
  · rw [rstrip_eq_self cs '0' '\n' h (by decide),
      rstrip_eq_self cs '.' '\n' h (by decide)]
  · rfl

theorem decimal_trim_shape (neg ip frac : List Char)
    (hneg : neg = [] ∨ neg = ['-']) (hip : ip ≠ [])
    (hipd : ∀ a ∈ ip, isDigitNd a = true) (hfd : ∀ a ∈ frac, isDigitNd a = true)
    (hlast : frac.getLast? = some '0') :
    decimal_trim (neg ++ ip ++ '.' :: frac) =
      (if rstrip frac '0' = [] then neg ++ ip
       else neg ++ ip ++ '.' :: rstrip frac '0') := by
  have hm : decMatch (neg ++ ip ++ '.' :: frac) = true := by
    simp only [decMatch, Bool.or_eq_true]
    exact Or.inl (decMatchCore_complete neg ip frac hneg hip hipd hfd hlast)
  unfold decimal_trim
  rw [hm, if_pos rfl]
  have hdot0 : ('.' : Char) ≠ '0' := by decide
  have step1 : rstrip (neg ++ ip ++ '.' :: frac) '0' =
      (neg ++ ip) ++ '.' :: rstrip frac '0' :=
    rstrip_append_cons (neg ++ ip) '.' frac '0' hdot0
  rw [step1]
  -- getLast of ip: a digit, hence distinct from '.'
  obtain ⟨z, hz⟩ : ∃ z, ip.getLast? = some z := by
    cases hgl : ip.getLast? with
    | none => exact absurd (by simpa using congrArg Option.isSome hgl) (by simpa using hip)
    | some z => exact ⟨z, rfl⟩
  have hzip : z ∈ ip := by
    obtain ⟨l', hl⟩ := exists_append_singleton_of_getLast? ip z hz
    subst hl
    simp
  have hzdig : isDigitNd z = true := hipd z hzip
  have hzdot : z ≠ '.' := by
    intro hzeq
    rw [hzeq] at hzdig
    exact absurd hzdig (by decide)
  split
  case isTrue h0 =>
    rw [h0]
    rw [show (neg ++ ip) ++ '.' :: ([] : List Char) = (neg ++ ip) ++ ['.'] from rfl]
    rw [rstrip_append_self (neg ++ ip) '.']
    apply rstrip_eq_self (neg ++ ip) '.' z _ hzdot
    rw [List.getLast?_append_of_ne_nil neg hip]
    exact hz
  case isFalse h0 =>
    obtain ⟨w, hw⟩ : ∃ w, (rstrip frac '0').getLast? = some w := by
      cases hgl : (rstrip frac '0').getLast? with
      | none => exact absurd (by simpa using congrArg Option.isSome hgl) (by simpa using h0)
      | some w => exact ⟨w, rfl⟩
    have hwfrac : w ∈ frac := by
      obtain ⟨l', hl⟩ := exists_append_singleton_of_getLast? _ w hw
      exact mem_rstrip frac '0' w (by rw [hl]; simp)
    have hwdig : isDigitNd w = true := hfd w hwfrac
    have hwdot : w ≠ '.' := by
      intro hweq
      rw [hweq] at hwdig
      exact absurd hwdig (by decide)
    apply rstrip_eq_self _ '.' w _ hwdot
    rw [List.getLast?_append_of_ne_nil (neg ++ ip) (by simp [h0])]
    cases hr : rstrip frac '0' with
    | nil => exact absurd hr h0
    | cons a l => rw [hr] at hw; rw [List.getLast?_cons_cons]; exact hw

/-! ### The date regexes against the spec's shapes -/

theorem getLast?_of_ne_nil (l : List Char) (h : l ≠ []) :
    ∃ z, l.getLast? = some z ∧ z ∈ l := by
  cases hgl : l.getLast? with
  | none => exact absurd (by simpa using congrArg Option.isSome hgl) (by simpa using h)
  | some z =>
    refine ⟨z, rfl, ?_⟩
    obtain ⟨l', hl⟩ := exists_append_singleton_of_getLast? l z hgl
    rw [hl]
    simp

theorem dateMatch1Core_sound (cs m d y : List Char)
    (h : dateMatch1Core cs = some (m, d, y)) :
    cs = m ++ '/' :: (d ++ '/' :: y) ∧
    (∀ a ∈ m, isDigitNd a = true) ∧ 1 ≤ m.length ∧ m.length ≤ 2 ∧
    (∀ a ∈ d, isDigitNd a = true) ∧ 1 ≤ d.length ∧ d.length ≤ 2 ∧
    (∀ a ∈ y, isDigitNd a = true) ∧ y.length = 4 := by
  rcases hr1 : cs.dropWhile isDigitNd with _ | ⟨c1, r2⟩
  · simp only [dateMatch1Core, hr1] at h
    exact Option.noConfusion h
  · simp only [dateMatch1Core, hr1] at h
    by_cases hc1 : c1 = '/'
    case neg => simp [hc1] at h
    subst hc1
    rw [if_pos rfl] at h
    rcases hr3 : r2.dropWhile isDigitNd with _ | ⟨c2, yy⟩
    · simp only [hr3] at h
      exact Option.noConfusion h
    · simp only [hr3] at h
      by_cases hc2 : c2 = '/'
      case neg => simp [hc2] at h
      subst hc2
      rw [if_pos rfl] at h
      split at h
      next hcond =>
        simp only [Option.some.injEq, Prod.mk.injEq] at h
        obtain ⟨hm, hd, hy⟩ := h
        simp only [Bool.and_eq_true, decide_eq_true_eq, beq_iff_eq,
          List.all_eq_true] at hcond
        obtain ⟨⟨hm1, hm2⟩, ⟨hd1, hd2⟩, hy4, hyd⟩ := hcond
        subst hm
        subst hd
        subst hy
        refine ⟨?_, fun a ha => List.mem_takeWhile_imp ha, hm1, hm2,
          fun a ha => List.mem_takeWhile_imp ha, hd1, hd2, hyd, hy4⟩
        conv_lhs => rw [← List.takeWhile_append_dropWhile (p := isDigitNd) (l := cs)]
        rw [hr1]
        congr 1
        congr 1
        conv_lhs => rw [← List.takeWhile_append_dropWhile (p := isDigitNd) (l := r2)]
        rw [hr3]
      next => exact Option.noConfusion h

theorem dateMatch1Core_complete (m d y : List Char)
    (hm : ∀ a ∈ m, isDigitNd a = true) (hm1 : 1 ≤ m.length) (hm2 : m.length ≤ 2)
    (hd : ∀ a ∈ d, isDigitNd a = true) (hd1 : 1 ≤ d.length) (hd2 : d.length ≤ 2)
    (hy : ∀ a ∈ y, isDigitNd a = true) (hy4 : y.length = 4) :
    dateMatch1Core (m ++ '/' :: (d ++ '/' :: y)) = some (m, d, y) := by
  have hslash : isDigitNd '/' = false := by decide
  have t1 := takeWhile_middle isDigitNd m '/' (d ++ '/' :: y) hm hslash
  have t2 := takeWhile_middle isDigitNd d '/' y hd hslash
  simp only [dateMatch1Core, t1.1, t1.2, t2.1, t2.2]
  simp [hm1, hm2, hd1, hd2, hy4, List.all_eq_true]
  exact hy

theorem dateMatch2Core_sound (cs y m d : List Char)
    (h : dateMatch2Core cs = some (y, m, d)) :
    cs = y ++ '-' :: (m ++ '-' :: d) ∧
    (∀ a ∈ y, isDigitNd a = true) ∧ y.length = 4 ∧
    (∀ a ∈ m, isDigitNd a = true) ∧ 1 ≤ m.length ∧ m.length ≤ 2 ∧
    (∀ a ∈ d, isDigitNd a = true) ∧ 1 ≤ d.length ∧ d.length ≤ 2 := by
  rcases hr1 : cs.dropWhile isDigitNd with _ | ⟨c1, r2⟩
  · simp only [dateMatch2Core, hr1] at h
    exact Option.noConfusion h
  · simp only [dateMatch2Core, hr1] at h
    by_cases hc1 : c1 = '-'
    case neg => simp [hc1] at h
    subst hc1
    rw [if_pos rfl] at h
    rcases hr3 : r2.dropWhile isDigitNd with _ | ⟨c2, dd⟩
    · simp only [hr3] at h
      exact Option.noConfusion h
    · simp only [hr3] at h
      by_cases hc2 : c2 = '-'
      case neg => simp [hc2] at h
      subst hc2
      rw [if_pos rfl] at h
      split at h
      next hcond =>
        simp only [Option.some.injEq, Prod.mk.injEq] at h
        obtain ⟨hy, hm, hd⟩ := h
        simp only [Bool.and_eq_true, decide_eq_true_eq, beq_iff_eq,
          List.all_eq_true] at hcond
        obtain ⟨hy4, ⟨hm1, hm2⟩, ⟨hd1, hd2⟩, hdd⟩ := hcond
        subst hy
        subst hm
        subst hd
        refine ⟨?_, fun a ha => List.mem_takeWhile_imp ha, hy4,
          fun a ha => List.mem_takeWhile_imp ha, hm1, hm2, hdd, hd1, hd2⟩
        conv_lhs => rw [← List.takeWhile_append_dropWhile (p := isDigitNd) (l := cs)]
        rw [hr1]
        congr 1
        congr 1
        conv_lhs => rw [← List.takeWhile_append_dropWhile (p := isDigitNd) (l := r2)]
        rw [hr3]
      next => exact Option.noConfusion h

theorem dateMatch2Core_complete (y m d : List Char)
    (hy : ∀ a ∈ y, isDigitNd a = true) (hy4 : y.length = 4)
    (hm : ∀ a ∈ m, isDigitNd a = true) (hm1 : 1 ≤ m.length) (hm2 : m.length ≤ 2)
    (hd : ∀ a ∈ d, isDigitNd a = true) (hd1 : 1 ≤ d.length) (hd2 : d.length ≤ 2) :
    dateMatch2Core (y ++ '-' :: (m ++ '-' :: d)) = some (y, m, d) := by
  have hdash : isDigitNd '-' = false := by decide
  have t1 := takeWhile_middle isDigitNd y '-' (m ++ '-' :: d) hy hdash
  have t2 := takeWhile_middle isDigitNd m '-' d hm hdash
  simp only [dateMatch2Core, t1.1, t1.2, t2.1, t2.2]
  simp [hy4, hm1, hm2, hd1, hd2, List.all_eq_true]
  exact hd

theorem dateMatch1Core_none_of_dash (y rest : List Char)
    (hy : ∀ a ∈ y, isDigitNd a = true) :
    dateMatch1Core (y ++ '-' :: rest) = none := by
  have hdash : isDigitNd '-' = false := by decide
  have t1 := takeWhile_middle isDigitNd y '-' rest hy hdash
  simp only [dateMatch1Core, t1.1, t1.2]
  simp

theorem dateMatch1Core_none_of_last (cs : List Char) (x : Char)
    (hx : cs.getLast? = some x) (hxd : isDigitNd x = false) :
    dateMatch1Core cs = none := by
  cases h : dateMatch1Core cs with
  | none => rfl
  | some r =>
    obtain ⟨m, d, y⟩ := r
    obtain ⟨hcs, _, _, _, _, _, _, hyd, hy4⟩ := dateMatch1Core_sound cs m d y h
    have hyne : y ≠ [] := by
      intro hy
      rw [hy] at hy4
      simp at hy4
    have hlast : cs.getLast? = y.getLast? := by
      rw [hcs, getLast?_append_cons_of_ne_nil m '/' (d ++ '/' :: y) (by simp),
        getLast?_append_cons_of_ne_nil d '/' y hyne]
    rw [hlast] at hx
    obtain ⟨l', hl⟩ := exists_append_singleton_of_getLast? y x hx
    have hxy : x ∈ y := by
      rw [hl]
      simp
    exact absurd (hyd x hxy) (by simp [hxd])

theorem dateMatch2Core_none_of_last (cs : List Char) (x : Char)
    (hx : cs.getLast? = some x) (hxd : isDigitNd x = false) :
    dateMatch2Core cs = none := by
  cases h : dateMatch2Core cs with
  | none => rfl
  | some r =>
    obtain ⟨y, m, d⟩ := r
    obtain ⟨hcs, _, _, _, _, _, hdd, hd1, _⟩ := dateMatch2Core_sound cs y m d h
    have hdne : d ≠ [] := by
      intro hd
      rw [hd] at hd1
      simp at hd1
    have hlast : cs.getLast? = d.getLast? := by
      rw [hcs, getLast?_append_cons_of_ne_nil y '-' (m ++ '-' :: d) (by simp),
        getLast?_append_cons_of_ne_nil m '-' d hdne]
    rw [hlast] at hx
    obtain ⟨l', hl⟩ := exists_append_singleton_of_getLast? d x hx
    have hxd' : x ∈ d := by
      rw [hl]
      simp
    exact absurd (hdd x hxd') (by simp [hxd])

theorem dateMatch1_of_core (cs : List Char) (r : List Char × List Char × List Char)
    (h : dateMatch1Core cs = some r) : dateMatch1 cs = some r := by
  simp [dateMatch1, h]

theorem dateMatch2_of_core (cs : List Char) (r : List Char × List Char × List Char)
    (h : dateMatch2Core cs = some r) : dateMatch2 cs = some r := by
  simp [dateMatch2, h]

theorem dateMatch1_none_parts (cs : List Char)
    (h1 : dateMatch1Core cs = none)
    (h2 : cs.getLast? = some '\n' → dateMatch1Core cs.dropLast = none) :
    dateMatch1 cs = none := by
  simp only [dateMatch1, h1]
  split
  next hnl => exact h2 hnl
  next => rfl

theorem dateMatch2_none_parts (cs : List Char)
    (h1 : dateMatch2Core cs = none)
    (h2 : cs.getLast? = some '\n' → dateMatch2Core cs.dropLast = none) :
    dateMatch2 cs = none := by
  simp only [dateMatch2, h1]
  split
  next hnl => exact h2 hnl
  next => rfl

theorem dateMatch1_newline (cs' : List Char) (r : List Char × List Char × List Char)
    (h : dateMatch1Core cs' = some r) : dateMatch1 (cs' ++ ['\n']) = some r := by
  have hcore : dateMatch1Core (cs' ++ ['\n']) = none :=
    dateMatch1Core_none_of_last (cs' ++ ['\n']) '\n' (by simp) (by decide)
  simp only [dateMatch1, hcore]
  rw [if_pos (by simp), List.dropLast_concat]
  exact h

theorem dateMatch2_newline (cs' : List Char) (r : List Char × List Char × List Char)
    (h : dateMatch2Core cs' = some r) : dateMatch2 (cs' ++ ['\n']) = some r := by
  have hcore : dateMatch2Core (cs' ++ ['\n']) = none :=
    dateMatch2Core_none_of_last (cs' ++ ['\n']) '\n' (by simp) (by decide)
  simp only [dateMatch2, hcore]
  rw [if_pos (by simp), List.dropLast_concat]
  exact h

theorem dateMatch1_sound_cases (cs m d y : List Char)
    (h : dateMatch1 cs = some (m, d, y)) :
    dateMatch1Core cs = some (m, d, y) ∨
      (cs.getLast? = some '\n' ∧ dateMatch1Core cs.dropLast = some (m, d, y)) := by
  simp only [dateMatch1] at h
  split at h
  next r heq =>
    injection h with h'
    subst h'
    exact Or.inl heq
  next heq =>
    split at h
    next hnl => exact Or.inr ⟨hnl, h⟩
    next => exact Option.noConfusion h

theorem dateMatch2_sound_cases (cs y m d : List Char)
    (h : dateMatch2 cs = some (y, m, d)) :
    dateMatch2Core cs = some (y, m, d) ∨
      (cs.getLast? = some '\n' ∧ dateMatch2Core cs.dropLast = some (y, m, d)) := by
  simp only [dateMatch2] at h
  split at h
  next r heq =>
    injection h with h'
    subst h'
    exact Or.inl heq
  next heq =>
    split at h
    next hnl => exact Or.inr ⟨hnl, h⟩
    next => exact Option.noConfusion h

theorem dateMatch1_sound_props (cs m d y : List Char)
    (h : dateMatch1 cs = some (m, d, y)) :
    (∀ a ∈ m, isDigitNd a = true) ∧ (∀ a ∈ d, isDigitNd a = true) ∧
    (∀ a ∈ y, isDigitNd a = true) ∧ y.length = 4 := by
  rcases dateMatch1_sound_cases cs m d y h with hc | ⟨_, hc⟩ <;>
  · obtain ⟨_, hm, _, _, hd, _, _, hy, hy4⟩ := dateMatch1Core_sound _ m d y hc
    exact ⟨hm, hd, hy, hy4⟩

theorem dateMatch2_sound_props (cs y m d : List Char)
    (h : dateMatch2 cs = some (y, m, d)) :
    (∀ a ∈ m, isDigitNd a = true) ∧ (∀ a ∈ d, isDigitNd a = true) ∧
    (∀ a ∈ y, isDigitNd a = true) ∧ y.length = 4 := by
  rcases dateMatch2_sound_cases cs y m d h with hc | ⟨_, hc⟩ <;>
  · obtain ⟨_, hy, hy4, hm, _, _, hd, _, _⟩ := dateMatch2Core_sound _ y m d hc
    exact ⟨hm, hd, hy, hy4⟩

theorem mem_dot_of_specDecimalShape (cs : List Char) (h : specDecimalShape cs) :
    '.' ∈ cs := by
  obtain ⟨neg, ip, frac, rfl, _, _, _, _, _⟩ := h
  simp

/-! ### Normal forms of the field normalizer -/

theorem normalizeDateL_of_nones (cs : List Char)
    (h1 : dateMatch1 cs = none) (h2 : dateMatch2 cs = none) :
    normalizeDateL cs = cs := by
  simp [normalizeDateL, h1, h2]

theorem fixed_zero : FixedField ['0'] := by
  unfold FixedField
  decide

theorem normalizeFieldL_of_fixed (cs : List Char) (h : FixedField cs) :
    normalizeFieldL cs = cs := by
  obtain ⟨h1, h2, h3, h4, h5⟩ := h
  simp only [normalizeFieldL]
  rw [h1]
  rw [if_neg (fun hor => hor.elim h2 h3)]
  exact normalizeDateL_of_nones cs h4 h5

theorem dateMatch1Core_none_of_number (neg ip tl : List Char)
    (hneg : neg = [] ∨ neg = ['-']) (hip : ip ≠ [])
    (hipd : ∀ a ∈ ip, isDigitNd a = true)
    (htl : tl = [] ∨ ∃ F0, tl = '.' :: F0) :
    dateMatch1Core (neg ++ ip ++ tl) = none := by
  have htd : (ip ++ tl).takeWhile isDigitNd = ip ∧
      (ip ++ tl).dropWhile isDigitNd = tl := by
    rcases htl with h | ⟨F0, hF⟩
    · subst h
      simpa using takeWhile_all isDigitNd ip hipd
    · subst hF
      exact takeWhile_middle isDigitNd ip '.' F0 hipd (by decide)
  rcases hneg with h | h
  · subst h
    simp only [List.nil_append, dateMatch1Core]
    rw [htd.2]
    rcases htl with h' | ⟨F0, hF⟩
    · subst h'
      rfl
    · subst hF
      simp
  · subst h
    simp only [dateMatch1Core]
    rw [show (['-'] : List Char) ++ ip ++ tl = '-' :: (ip ++ tl) by simp]
    rw [List.dropWhile_cons, show isDigitNd '-' = false by decide]
    simp

theorem dateMatch2Core_none_of_number (neg ip tl : List Char)
    (hneg : neg = [] ∨ neg = ['-']) (hip : ip ≠ [])
    (hipd : ∀ a ∈ ip, isDigitNd a = true)
    (htl : tl = [] ∨ ∃ F0, tl = '.' :: F0) :
    dateMatch2Core (neg ++ ip ++ tl) = none := by
  have htd : (ip ++ tl).takeWhile isDigitNd = ip ∧
      (ip ++ tl).dropWhile isDigitNd = tl := by
    rcases htl with h | ⟨F0, hF⟩
    · subst h
      simpa using takeWhile_all isDigitNd ip hipd
    · subst hF
      exact takeWhile_middle isDigitNd ip '.' F0 hipd (by decide)
  rcases hneg with h | h
  · subst h
    simp only [List.nil_append, dateMatch2Core]
    rw [htd.2]
    rcases htl with h' | ⟨F0, hF⟩
    · subst h'
      rfl
    · subst hF
      simp
  · subst h
    simp only [dateMatch2Core]
    rw [show (['-'] : List Char) ++ ip ++ tl = '-' :: (ip ++ tl) by simp]
    rw [List.dropWhile_cons, show isDigitNd '-' = false by decide]
    simp only [Bool.false_eq_true, if_false, if_pos rfl]
    rw [htd.2]
    rcases htl with h' | ⟨F0, hF⟩
    · subst h'
      rfl
    · subst hF
      simp

theorem fixed_of_number (neg ip tl : List Char)
    (hneg : neg = [] ∨ neg = ['-']) (hip : ip ≠ [])
    (hipd : ∀ a ∈ ip, isDigitNd a = true)
    (htl : tl = [] ∨ ∃ F0, tl = '.' :: F0 ∧ F0 ≠ [] ∧ (∀ a ∈ F0, isDigitNd a = true) ∧
      F0.getLast? ≠ some '0')
    (hne : neg ++ ip ++ tl ≠ ['-', '0']) :
    FixedField (neg ++ ip ++ tl) := by
  have htl' : tl = [] ∨ ∃ F0, tl = '.' :: F0 := by
    rcases htl with h | ⟨F0, hF, _, _, _⟩
    · exact Or.inl h
    · exact Or.inr ⟨F0, hF⟩
  have hstrip : stripNeg (neg ++ ip ++ tl) = ip ++ tl := by
    rcases hneg with h | h
    · subst h
      simp only [List.nil_append]
      apply stripNeg_of_head_digit
      intro a ha
      cases ip with
      | nil => exact absurd rfl hip
      | cons c t =>
        simp at ha
        subst ha
        exact hipd c (by simp)
    · subst h
      simp [stripNeg]
  have htd : (ip ++ tl).takeWhile isDigitNd = ip ∧
      (ip ++ tl).dropWhile isDigitNd = tl := by
    rcases htl with h | ⟨F0, hF, _, _, _⟩
    · subst h
      simpa using takeWhile_all isDigitNd ip hipd
    · subst hF
      exact takeWhile_middle isDigitNd ip '.' F0 hipd (by decide)
  have hzlast : ∃ z, (neg ++ ip ++ tl).getLast? = some z ∧ isDigitNd z = true := by
    rcases htl with h | ⟨F0, hF, hF0ne, hF0d, _⟩
    · subst h
      obtain ⟨z, hz, hz'⟩ := getLast?_of_ne_nil ip hip
      refine ⟨z, ?_, hipd z hz'⟩
      rw [List.append_nil, List.getLast?_append_of_ne_nil neg hip]
      exact hz
    · subst hF
      obtain ⟨z, hz, hz'⟩ := getLast?_of_ne_nil F0 hF0ne
      refine ⟨z, ?_, hF0d z hz'⟩
      rw [getLast?_append_cons_of_ne_nil (neg ++ ip) '.' F0 hF0ne]
      exact hz
  obtain ⟨z, hzl, hzdig⟩ := hzlast
  have hznl : z ≠ '\n' := by
    intro hq
    rw [hq] at hzdig
    exact absurd hzdig (by decide)
  have hnlF : (neg ++ ip ++ tl).getLast? ≠ some '\n' := by
    rw [hzl]
    intro hq
    simp at hq
    exact hznl hq
  have hcoref : decMatchCore (neg ++ ip ++ tl) = false := by
    simp only [decMatchCore]
    rw [hstrip, htd.1, htd.2]
    rcases htl with h | ⟨F0, hF, hF0ne, hF0d, hF0last⟩
    · subst h
      rfl
    · subst hF
      have : (F0.getLast? == some '0') = false := by
        simp [hF0last]
      simp [this]
  have hendf : endsNL (neg ++ ip ++ tl) = false := by
    unfold endsNL
    rw [hzl]
    simp [hznl]
  refine ⟨?_, hne, ?_, ?_, ?_⟩
  · have hdm : decMatch (neg ++ ip ++ tl) = false := by
      unfold decMatch
      rw [hcoref, hendf]
      rfl
    simp only [decimal_trim]
    rw [hdm]
    rfl
  · intro hq
    rw [hq] at hzl
    simp at hzl
    exact hznl hzl.symm
  · apply dateMatch1_none_parts
    · exact dateMatch1Core_none_of_number neg ip tl hneg hip hipd htl'
    · intro hq
      exact absurd hq hnlF
  · apply dateMatch2_none_parts
    · exact dateMatch2Core_none_of_number neg ip tl hneg hip hipd htl'
    · intro hq
      exact absurd hq hnlF

theorem fixed_of_date_output (m d y : List Char)
    (hm : ∀ a ∈ m, isDigitNd a = true) (hd : ∀ a ∈ d, isDigitNd a = true)
    (hy : y.length = 2) (hyd : ∀ a ∈ y, isDigitNd a = true) :
    FixedField (m ++ '/' :: (d ++ '/' :: y)) := by
  have hslash : isDigitNd '/' = false := by decide
  have t1 := takeWhile_middle isDigitNd m '/' (d ++ '/' :: y) hm hslash
  have t2 := takeWhile_middle isDigitNd d '/' y hd hslash
  have hyne : y ≠ [] := by
    intro hq
    rw [hq] at hy
    simp at hy
  have hhead : ∀ a, (m ++ '/' :: (d ++ '/' :: y)).head? = some a → a ≠ '-' := by
    intro a ha
    cases m with
    | nil =>
      simp at ha
      subst ha
      decide
    | cons c t =>
      simp at ha
      subst ha
      have hcd := hm c (by simp)
      intro heq
      rw [heq] at hcd
      exact absurd hcd (by decide)
  have hzlast : ∃ z, (m ++ '/' :: (d ++ '/' :: y)).getLast? = some z ∧
      isDigitNd z = true := by
    obtain ⟨z, hz, hz'⟩ := getLast?_of_ne_nil y hyne
    refine ⟨z, ?_, hyd z hz'⟩
    rw [getLast?_append_cons_of_ne_nil m '/' (d ++ '/' :: y) (by simp),
      getLast?_append_cons_of_ne_nil d '/' y hyne]
    exact hz
  obtain ⟨z, hzl, hzdig⟩ := hzlast
  have hznl : z ≠ '\n' := by
    intro hq
    rw [hq] at hzdig
    exact absurd hzdig (by decide)
  have hnlF : (m ++ '/' :: (d ++ '/' :: y)).getLast? ≠ some '\n' := by
    rw [hzl]
    intro hq
    simp at hq
    exact hznl hq
  refine ⟨?_, ?_, ?_, ?_, ?_⟩
  · have hstrip : stripNeg (m ++ '/' :: (d ++ '/' :: y)) = m ++ '/' :: (d ++ '/' :: y) := by
      unfold stripNeg
      cases hh : (m ++ '/' :: (d ++ '/' :: y)).head? with
      | none => simp
      | some a =>
        have := hhead a hh
        simp [this]
    have hcoref : decMatchCore (m ++ '/' :: (d ++ '/' :: y)) = false := by
      simp only [decMatchCore]
      rw [hstrip, t1.2]
      simp
    have hendf : endsNL (m ++ '/' :: (d ++ '/' :: y)) = false := by
      unfold endsNL
      rw [hzl]
      simp [hznl]
    have hdm : decMatch (m ++ '/' :: (d ++ '/' :: y)) = false := by
      unfold decMatch
      rw [hcoref, hendf]
      rfl
    simp only [decimal_trim]
    rw [hdm]
    rfl
  · intro heq
    have hh : (m ++ '/' :: (d ++ '/' :: y)).head? = some '-' := by
      rw [heq]
      rfl
    exact hhead '-' hh rfl
  · intro heq
    have hh : (m ++ '/' :: (d ++ '/' :: y)).head? = some '-' := by
      rw [heq]
      rfl
    exact hhead '-' hh rfl
  · apply dateMatch1_none_parts
    · simp only [dateMatch1Core]
      rw [t1.1, t1.2]
      simp only [if_pos rfl]
      rw [t2.1, t2.2]
      simp [hy]
    · intro hq
      exact absurd hq hnlF
  · apply dateMatch2_none_parts
    · simp only [dateMatch2Core]
      rw [t1.1, t1.2]
      simp
    · intro hq
      exact absurd hq hnlF

theorem fixed_normalizeFieldL (cs : List Char) : FixedField (normalizeFieldL cs) := by
  simp only [normalizeFieldL]
  by_cases hcore : decMatchCore cs = true
  · obtain ⟨neg, ip, frac, hcs, hneg, hip, hipd, hfd, hlast⟩ := decMatchCore_sound cs hcore
    subst hcs
    rw [decimal_trim_shape neg ip frac hneg hip hipd hfd hlast]
    by_cases h0 : rstrip frac '0' = []
    · rw [if_pos h0]
      by_cases hz : neg ++ ip = ['-', '0'] ∨ neg ++ ip = ['-', '0', '\n']
      · rw [if_pos hz]
        exact fixed_zero
      · rw [if_neg hz]
        have hz1 : neg ++ ip ≠ ['-', '0'] := fun h => hz (Or.inl h)
        have hfix : FixedField (neg ++ ip) := by
          have := fixed_of_number neg ip [] hneg hip hipd (Or.inl rfl) (by simpa using hz1)
          simpa using this
        rw [normalizeDateL_of_nones _ hfix.2.2.2.1 hfix.2.2.2.2]
        exact hfix
    · rw [if_neg h0]
      by_cases hz : neg ++ ip ++ '.' :: rstrip frac '0' = ['-', '0'] ∨
          neg ++ ip ++ '.' :: rstrip frac '0' = ['-', '0', '\n']
      · rw [if_pos hz]
        exact fixed_zero
      · rw [if_neg hz]
        have hz1 : neg ++ ip ++ '.' :: rstrip frac '0' ≠ ['-', '0'] :=
          fun h => hz (Or.inl h)
        have hfd0 : ∀ a ∈ rstrip frac '0', isDigitNd a = true :=
          fun a ha => hfd a (mem_rstrip frac '0' a ha)
        have hlast0 : (rstrip frac '0').getLast? ≠ some '0' := by
          intro hq
          exact getLast?_rstrip_ne frac '0' '0' hq rfl
        have hfix : FixedField (neg ++ ip ++ '.' :: rstrip frac '0') :=
          fixed_of_number neg ip ('.' :: rstrip frac '0') hneg hip hipd
            (Or.inr ⟨rstrip frac '0', rfl, h0, hfd0, hlast0⟩) hz1
        rw [normalizeDateL_of_nones _ hfix.2.2.2.1 hfix.2.2.2.2]
        exact hfix
  · by_cases hnlm : decMatch cs = true
    · rcases (decMatch_iff cs).mp hnlm with hshape | ⟨cs', hcseq, hshape'⟩
      · exact absurd ((decMatchCore_iff cs).mpr hshape) hcore
      · have hlastnl : cs.getLast? = some '\n' := by
          rw [hcseq]
          simp
        have htrim : decimal_trim cs = cs := decimal_trim_of_newline cs hlastnl
        rw [htrim]
        have hdl : cs.dropLast = cs' := by
          rw [hcseq]
          exact List.dropLast_concat
        have hznot : ¬ (cs = ['-', '0'] ∨ cs = ['-', '0', '\n']) := by
          rintro (hq | hq)
          · rw [hq] at hlastnl
            exact absurd hlastnl (by decide)
          · have hcs0 : cs' = ['-', '0'] := by
              rw [← hdl, hq]
              rfl
            have := mem_dot_of_specDecimalShape cs' hshape'
            rw [hcs0] at this
            exact absurd this (by decide)
        rw [if_neg hznot]
        obtain ⟨neg, ip, frac, hcs', hneg, hip, hipd, _, _⟩ := hshape'
        have hd1 : dateMatch1 cs = none := by
          apply dateMatch1_none_parts
          · exact dateMatch1Core_none_of_last cs '\n' hlastnl (by decide)
          · intro _
            rw [hdl, hcs']
            exact dateMatch1Core_none_of_number neg ip ('.' :: frac) hneg hip hipd
              (Or.inr ⟨frac, rfl⟩)
        have hd2 : dateMatch2 cs = none := by
          apply dateMatch2_none_parts
          · exact dateMatch2Core_none_of_last cs '\n' hlastnl (by decide)
          · intro _
            rw [hdl, hcs']
            exact dateMatch2Core_none_of_number neg ip ('.' :: frac) hneg hip hipd
              (Or.inr ⟨frac, rfl⟩)
        rw [normalizeDateL_of_nones cs hd1 hd2]
        exact ⟨htrim, fun h => hznot (Or.inl h), fun h => hznot (Or.inr h), hd1, hd2⟩
    · have hdm : decMatch cs = false := by simpa using hnlm
      have htrim : decimal_trim cs = cs := by simp [decimal_trim, hdm]
      rw [htrim]
      by_cases hz : cs = ['-', '0'] ∨ cs = ['-', '0', '\n']
      · rw [if_pos hz]
        exact fixed_zero
      · rw [if_neg hz]
        rcases hq1 : dateMatch1 cs with _ | ⟨m, d, y⟩
        · rcases hq2 : dateMatch2 cs with _ | ⟨y, m, d⟩
          · rw [normalizeDateL_of_nones cs hq1 hq2]
            exact ⟨htrim, fun h => hz (Or.inl h), fun h => hz (Or.inr h), hq1, hq2⟩
          · obtain ⟨hmd, hdd, hyd, hy4⟩ := dateMatch2_sound_props cs y m d hq2
            rw [show normalizeDateL cs =
                lstrip m '0' ++ '/' :: (lstrip d '0' ++ '/' :: y.drop 2) by
              simp [normalizeDateL, hq1, hq2]]
            apply fixed_of_date_output
            · exact fun a ha => hmd a (mem_lstrip m '0' a ha)
            · exact fun a ha => hdd a (mem_lstrip d '0' a ha)
            · simp [hy4]
            · exact fun a ha => hyd a (List.mem_of_mem_drop ha)
        · obtain ⟨hmd, hdd, hyd, hy4⟩ := dateMatch1_sound_props cs m d y hq1
          rw [show normalizeDateL cs =
              lstrip m '0' ++ '/' :: (lstrip d '0' ++ '/' :: y.drop 2) by
            simp [normalizeDateL, hq1]]
          apply fixed_of_date_output
          · exact fun a ha => hmd a (mem_lstrip m '0' a ha)
          · exact fun a ha => hdd a (mem_lstrip d '0' a ha)
          · simp [hy4]
          · exact fun a ha => hyd a (List.mem_of_mem_drop ha)

/-! ### Date rewrites for both shapes, with and without trailing newline -/

theorem normalizeDateL_shape1 (m d y : List Char)
    (hm : ∀ a ∈ m, isDigitNd a = true) (hm1 : 1 ≤ m.length) (hm2 : m.length ≤ 2)
    (hd : ∀ a ∈ d, isDigitNd a = true) (hd1 : 1 ≤ d.length) (hd2 : d.length ≤ 2)
    (hy : ∀ a ∈ y, isDigitNd a = true) (hy4 : y.length = 4) :
    normalizeDateL (m ++ '/' :: (d ++ '/' :: y)) =
      lstrip m '0' ++ '/' :: (lstrip d '0' ++ '/' :: y.drop 2) := by
  have hc1 := dateMatch1Core_complete m d y hm hm1 hm2 hd hd1 hd2 hy hy4
  simp [normalizeDateL, dateMatch1_of_core _ _ hc1]

theorem normalizeDateL_shape1_newline (m d y : List Char)
    (hm : ∀ a ∈ m, isDigitNd a = true) (hm1 : 1 ≤ m.length) (hm2 : m.length ≤ 2)
    (hd : ∀ a ∈ d, isDigitNd a = true) (hd1 : 1 ≤ d.length) (hd2 : d.length ≤ 2)
    (hy : ∀ a ∈ y, isDigitNd a = true) (hy4 : y.length = 4) :
    normalizeDateL ((m ++ '/' :: (d ++ '/' :: y)) ++ ['\n']) =
      lstrip m '0' ++ '/' :: (lstrip d '0' ++ '/' :: y.drop 2) := by
  have hc1 := dateMatch1Core_complete m d y hm hm1 hm2 hd hd1 hd2 hy hy4
  unfold normalizeDateL
  rw [dateMatch1_newline _ _ hc1]

theorem dateMatch1_none_of_shape2 (y m d : List Char)
    (hy : ∀ a ∈ y, isDigitNd a = true) (hd : ∀ a ∈ d, isDigitNd a = true)
    (hd1 : 1 ≤ d.length) :
    dateMatch1 (y ++ '-' :: (m ++ '-' :: d)) = none := by
  apply dateMatch1_none_parts _ (dateMatch1Core_none_of_dash y (m ++ '-' :: d) hy)
  intro hq
  have hdne : d ≠ [] := by
    intro h'
    rw [h'] at hd1
    simp at hd1
  obtain ⟨z, hz, hz'⟩ := getLast?_of_ne_nil d hdne
  have hzl : (y ++ '-' :: (m ++ '-' :: d)).getLast? = some z := by
    rw [getLast?_append_cons_of_ne_nil y '-' (m ++ '-' :: d) (by simp),
      getLast?_append_cons_of_ne_nil m '-' d hdne]
    exact hz
  rw [hzl] at hq
  have hzn : z = '\n' := by simpa using hq
  rw [hzn] at hz'
  exact absurd (hd '\n' hz') (by decide)

theorem normalizeDateL_shape2 (m d y : List Char)
    (hm : ∀ a ∈ m, isDigitNd a = true) (hm1 : 1 ≤ m.length) (hm2 : m.length ≤ 2)
    (hd : ∀ a ∈ d, isDigitNd a = true) (hd1 : 1 ≤ d.length) (hd2 : d.length ≤ 2)
    (hy : ∀ a ∈ y, isDigitNd a = true) (hy4 : y.length = 4) :
    normalizeDateL (y ++ '-' :: (m ++ '-' :: d)) =
      lstrip m '0' ++ '/' :: (lstrip d '0' ++ '/' :: y.drop 2) := by
  have hw1 := dateMatch1_none_of_shape2 y m d hy hd hd1
  have hc2 := dateMatch2Core_complete y m d hy hy4 hm hm1 hm2 hd hd1 hd2
  simp [normalizeDateL, hw1, dateMatch2_of_core _ _ hc2]

theorem normalizeDateL_shape2_newline (m d y : List Char)
    (hm : ∀ a ∈ m, isDigitNd a = true) (hm1 : 1 ≤ m.length) (hm2 : m.length ≤ 2)
    (hd : ∀ a ∈ d, isDigitNd a = true) (hd1 : 1 ≤ d.length) (hd2 : d.length ≤ 2)
    (hy : ∀ a ∈ y, isDigitNd a = true) (hy4 : y.length = 4) :
    normalizeDateL ((y ++ '-' :: (m ++ '-' :: d)) ++ ['\n']) =
      lstrip m '0' ++ '/' :: (lstrip d '0' ++ '/' :: y.drop 2) := by
  have hw1 : dateMatch1 ((y ++ '-' :: (m ++ '-' :: d)) ++ ['\n']) = none := by
    apply dateMatch1_none_parts
    · exact dateMatch1Core_none_of_last _ '\n' (List.getLast?_concat _) (by decide)
    · intro _
      rw [List.dropLast_concat]
      exact dateMatch1Core_none_of_dash y (m ++ '-' :: d) hy
  have hc2 := dateMatch2Core_complete y m d hy hy4 hm hm1 hm2 hd hd1 hd2
  unfold normalizeDateL
  rw [hw1, dateMatch2_newline _ _ hc2]

/-! ### Claim theorems: the field normalizer -/

/-- C4: the source's decimal regex fires exactly on the whole-field
pattern "optional leading minus sign, one or more digits, a literal
period, zero or more digits, ending in the digit 0" — digits being
Unicode decimal digits — possibly followed by one trailing newline
(Python's `$` matches before it); a field matching the pattern as a
whole field has its trailing `0` characters stripped and then a trailing
`.` if one remains, while a field not matching at both ends (even one
merely containing such a substring) is left unchanged by the rule. -/
theorem decimal_trim_spec :
    (∀ f : String, decMatch f.data = true ↔
      (specDecimalShape f.data ∨ ∃ cs, f.data = cs ++ ['\n'] ∧ specDecimalShape cs)) ∧
    (∀ neg ip frac : List Char, (neg = [] ∨ neg = ['-']) → ip ≠ [] →
      (∀ a ∈ ip, isDigitNd a = true) → (∀ a ∈ frac, isDigitNd a = true) →
      frac.getLast? = some '0' →
      decimal_trim (neg ++ ip ++ '.' :: frac) =
        (if rstrip frac '0' = [] then neg ++ ip
         else neg ++ ip ++ '.' :: rstrip frac '0')) ∧
    (∀ f : String, ¬ specDecimalShape f.data → decimal_trimS f = f) ∧
    decimal_trimS "12.500" = "12.5" ∧ decimal_trimS "3.0" = "3" ∧
    decimal_trimS "-4.20" = "-4.2" ∧ decimal_trimS "٥.00" = "٥" ∧
    decimal_trimS "x12.500" = "x12.500" ∧ decimal_trimS "12.500x" = "12.500x" ∧
    decimal_trimS "12.500\n" = "12.500\n" := by
  refine ⟨fun f => decMatch_iff f.data, decimal_trim_shape, fun f hf => ?_,
    by decide, by decide, by decide, by decide, by decide, by decide, by decide⟩
  unfold decimal_trimS
  by_cases hq : decMatch f.data = true
  · rcases (decMatch_iff f.data).mp hq with hs | ⟨cs, hcs, _⟩
    · exact absurd hs hf
    · rw [decimal_trim_of_newline f.data (by rw [hcs]; simp)]
  · have hb : decMatch f.data = false := by simpa using hq
    rw [show decimal_trim f.data = f.data by simp [decimal_trim, hb]]

/-- Witness for the decimal-trim theorem at the concrete field `5.50`. -/
theorem decimal_trim_spec_witness :
    decimal_trim ([] ++ ['5'] ++ '.' :: ['5', '0']) =
      (if rstrip ['5', '0'] '0' = [] then [] ++ ['5']
       else [] ++ ['5'] ++ '.' :: rstrip ['5', '0'] '0') :=
  decimal_trim_spec.2.1 [] ['5'] ['5', '0'] (Or.inl rfl) (by decide) (by decide)
    (by decide) (by decide)

/-- C5 counterexample: the source rewrites `2020-01-02` followed by a
trailing newline — a field matching neither whole-field date shape — to
`1/2/20`, because Python's `$` also matches just before a trailing
newline; so the claim's "a field matching neither whole-field shape is
returned unchanged" fails at this input. -/
theorem normalize_date_newline_counterexample :
    normalize_date "2020-01-02\n" = "1/2/20" ∧
    ¬ dateShape1 (String.data "2020-01-02\n") ∧
    ¬ dateShape2 (String.data "2020-01-02\n") := by
  refine ⟨by decide, ?_, ?_⟩
  · rintro ⟨m, d, y, hcs, hm, hm1, hm2, hd, hd1, hd2, hy, hy4⟩
    have hc := dateMatch1Core_complete m d y hm hm1 hm2 hd hd1 hd2 hy hy4
    rw [← hcs] at hc
    have h0 : dateMatch1Core (String.data "2020-01-02\n") = none := by decide
    rw [h0] at hc
    exact Option.noConfusion hc
  · rintro ⟨y, m, d, hcs, hy, hy4, hm, hm1, hm2, hd, hd1, hd2⟩
    have hc := dateMatch2Core_complete y m d hy hy4 hm hm1 hm2 hd hd1 hd2
    rw [← hcs] at hc
    have h0 : dateMatch2Core (String.data "2020-01-02\n") = none := by decide
    rw [h0] at hc
    exact Option.noConfusion hc

/-- C5 (amended): `normalize_date` rewrites a whole-field date of shape
`MM/DD/YYYY` (slashes, 4-digit year) or `YYYY-MM-DD` (ISO, hyphens) —
optionally followed by one trailing newline, which Python's `$` permits
and the rewrite drops — into the common form `M/D/YY` with no leading
zeros on month or day and the year truncated to the last two characters
of the 4-digit year; a field matching neither whole-field shape, even
allowing for the optional trailing newline, is returned unchanged. -/
theorem normalize_date_spec :
    (∀ m d y : List Char,
      (∀ a ∈ m, isDigitNd a = true) → 1 ≤ m.length → m.length ≤ 2 →
      (∀ a ∈ d, isDigitNd a = true) → 1 ≤ d.length → d.length ≤ 2 →
      (∀ a ∈ y, isDigitNd a = true) → y.length = 4 →
      normalizeDateL (m ++ '/' :: (d ++ '/' :: y)) =
        lstrip m '0' ++ '/' :: (lstrip d '0' ++ '/' :: y.drop 2) ∧
      normalizeDateL ((m ++ '/' :: (d ++ '/' :: y)) ++ ['\n']) =
        lstrip m '0' ++ '/' :: (lstrip d '0' ++ '/' :: y.drop 2) ∧
      normalizeDateL (y ++ '-' :: (m ++ '-' :: d)) =
        lstrip m '0' ++ '/' :: (lstrip d '0' ++ '/' :: y.drop 2) ∧
      normalizeDateL ((y ++ '-' :: (m ++ '-' :: d)) ++ ['\n']) =
        lstrip m '0' ++ '/' :: (lstrip d '0' ++ '/' :: y.drop 2)) ∧
    (∀ f : String, ¬ dateShapeAny f.data → normalize_date f = f) ∧
    normalize_date "01/02/2020" = "1/2/20" ∧
    normalize_date "2020-01-02" = "1/2/20" ∧
    normalize_date "01/02/2020\n" = "1/2/20" ∧
    normalize_date "hello" = "hello" := by
  refine ⟨fun m d y hm hm1 hm2 hd hd1 hd2 hy hy4 =>
    ⟨normalizeDateL_shape1 m d y hm hm1 hm2 hd hd1 hd2 hy hy4,
     normalizeDateL_shape1_newline m d y hm hm1 hm2 hd hd1 hd2 hy hy4,
     normalizeDateL_shape2 m d y hm hm1 hm2 hd hd1 hd2 hy hy4,
     normalizeDateL_shape2_newline m d y hm hm1 hm2 hd hd1 hd2 hy hy4⟩,
    fun f hf => ?_, by decide, by decide, by decide, by decide⟩
  have hn1 : dateMatch1 f.data = none := by
    cases hq : dateMatch1 f.data with
    | none => rfl
    | some v =>
      obtain ⟨m, d, y⟩ := v
      rcases dateMatch1_sound_cases f.data m d y hq with hc | ⟨hnl, hc⟩
      · exact absurd (Or.inl ⟨m, d, y, dateMatch1Core_sound f.data m d y hc⟩) hf
      · obtain ⟨l', hl⟩ := exists_append_singleton_of_getLast? f.data '\n' hnl
        have hdl : f.data.dropLast = l' := by
          rw [hl]
          exact List.dropLast_concat
        have hs1 : dateShape1 f.data.dropLast :=
          ⟨m, d, y, dateMatch1Core_sound f.data.dropLast m d y hc⟩
        rw [hdl] at hs1
        exact absurd (Or.inr (Or.inr ⟨l', hl, Or.inl hs1⟩)) hf
  have hn2 : dateMatch2 f.data = none := by
    cases hq : dateMatch2 f.data with
    | none => rfl
    | some v =>
      obtain ⟨y, m, d⟩ := v
      rcases dateMatch2_sound_cases f.data y m d hq with hc | ⟨hnl, hc⟩
      · exact absurd (Or.inr (Or.inl ⟨y, m, d, dateMatch2Core_sound f.data y m d hc⟩)) hf
      · obtain ⟨l', hl⟩ := exists_append_singleton_of_getLast? f.data '\n' hnl
        have hdl : f.data.dropLast = l' := by
          rw [hl]
          exact List.dropLast_concat
        have hs2 : dateShape2 f.data.dropLast :=
          ⟨y, m, d, dateMatch2Core_sound f.data.dropLast y m d hc⟩
        rw [hdl] at hs2
        exact absurd (Or.inr (Or.inr ⟨l', hl, Or.inr hs2⟩)) hf
  unfold normalize_date
  rw [normalizeDateL_of_nones f.data hn1 hn2]

/-- Witness for the date theorem at month `03`, day `4`, year `1999`. -/
theorem normalize_date_spec_witness :
    normalizeDateL (['0', '3'] ++ '/' :: (['4'] ++ '/' :: ['1', '9', '9', '9'])) =
      lstrip ['0', '3'] '0' ++ '/' :: (lstrip ['4'] '0' ++ '/' ::
        (['1', '9', '9', '9'].drop 2)) ∧
    normalizeDateL ((['0', '3'] ++ '/' :: (['4'] ++ '/' :: ['1', '9', '9', '9'])) ++ ['\n']) =
      lstrip ['0', '3'] '0' ++ '/' :: (lstrip ['4'] '0' ++ '/' ::
        (['1', '9', '9', '9'].drop 2)) ∧
    normalizeDateL (['1', '9', '9', '9'] ++ '-' :: (['0', '3'] ++ '-' :: ['4'])) =
      lstrip ['0', '3'] '0' ++ '/' :: (lstrip ['4'] '0' ++ '/' ::
        (['1', '9', '9', '9'].drop 2)) ∧
    normalizeDateL ((['1', '9', '9', '9'] ++ '-' :: (['0', '3'] ++ '-' :: ['4'])) ++ ['\n']) =
      lstrip ['0', '3'] '0' ++ '/' :: (lstrip ['4'] '0' ++ '/' ::
        (['1', '9', '9', '9'].drop 2)) :=
  normalize_date_spec.1 ['0', '3'] ['4'] ['1', '9', '9', '9'] (by decide) (by decide)
    (by decide) (by decide) (by decide) (by decide) (by decide) (by decide)

/-- C6: the rules apply in the fixed order decimal trim, negative-zero
collapse, date canonicalization; a field whose decimal trim is exactly
`-0` becomes `0` and is never passed to date canonicalization, so both
`-0` and `-0.0` normalize to `0`. -/
theorem normalize_field_rule_order :
    normalize_field "-0" = "0" ∧ normalize_field "-0.0" = "0" ∧
    ∀ f : String, decimal_trimS f = "-0" → normalize_field f = "0" := by
  refine ⟨by decide, by decide, fun f hf => ?_⟩
  have hdata : decimal_trim f.data = ['-', '0'] := by
    have h3 : String.mk (decimal_trim f.data) = String.mk ['-', '0'] := by
      rw [show String.mk ['-', '0'] = "-0" by decide]
      exact hf
    exact congrArg String.data h3
  simp only [normalize_field, normalizeFieldL]
  rw [hdata, if_pos (Or.inl rfl)]

/-- Witness for the rule-order theorem at the concrete field `-0.00`. -/
theorem normalize_field_rule_order_witness : normalize_field "-0.00" = "0" :=
  normalize_field_rule_order.2.2 "-0.00" (by decide)

/-- C7: field normalization is idempotent. -/
theorem normalize_field_idempotent (f : String) :
    normalize_field (normalize_field f) = normalize_field f := by
  show String.mk (normalizeFieldL (String.mk (normalizeFieldL f.data)).data) = _
  rw [show (String.mk (normalizeFieldL f.data)).data = normalizeFieldL f.data from rfl]
  rw [normalizeFieldL_of_fixed _ (fixed_normalizeFieldL f.data)]
  rfl

/-- C10: for every whole-field date (of either shape) whose month digits
are all zeros, or whose day digits are all zeros, date canonicalization
emits an empty component, since stripping leading zeros removes every
character; in particular `00/02/2020` becomes `/2/20` and `2020-00-00`
becomes `//20`. -/
theorem normalize_date_zero_components :
    (∀ m d y : List Char, (∀ a ∈ m, a = '0') → 1 ≤ m.length → m.length ≤ 2 →
      (∀ a ∈ d, isDigitNd a = true) → 1 ≤ d.length → d.length ≤ 2 →
      (∀ a ∈ y, isDigitNd a = true) → y.length = 4 →
      normalizeDateL (m ++ '/' :: (d ++ '/' :: y)) =
        '/' :: (lstrip d '0' ++ '/' :: y.drop 2) ∧
      normalizeDateL (y ++ '-' :: (m ++ '-' :: d)) =
        '/' :: (lstrip d '0' ++ '/' :: y.drop 2)) ∧
    (∀ m d y : List Char, (∀ a ∈ m, isDigitNd a = true) → 1 ≤ m.length →
      m.length ≤ 2 → (∀ a ∈ d, a = '0') → 1 ≤ d.length → d.length ≤ 2 →
      (∀ a ∈ y, isDigitNd a = true) → y.length = 4 →
      normalizeDateL (m ++ '/' :: (d ++ '/' :: y)) =
        lstrip m '0' ++ '/' :: ('/' :: y.drop 2) ∧
      normalizeDateL (y ++ '-' :: (m ++ '-' :: d)) =
        lstrip m '0' ++ '/' :: ('/' :: y.drop 2)) ∧
    normalize_date "00/02/2020" = "/2/20" ∧ normalize_date "2020-00-00" = "//20" := by
  have hzero : ∀ l : List Char, (∀ a ∈ l, a = '0') → lstrip l '0' = [] := by
    intro l hl
    exact (takeWhile_all (fun x => x == '0') l (fun a ha => by simp [hl a ha])).2
  have hdig : ∀ l : List Char, (∀ a ∈ l, a = '0') → ∀ a ∈ l, isDigitNd a = true := by
    intro l hl a ha
    rw [hl a ha]
    decide
  refine ⟨fun m d y hm hm1 hm2 hd hd1 hd2 hy hy4 => ?_,
    fun m d y hm hm1 hm2 hd hd1 hd2 hy hy4 => ?_, by decide, by decide⟩
  · constructor
    · rw [normalizeDateL_shape1 m d y (hdig m hm) hm1 hm2 hd hd1 hd2 hy hy4,
        hzero m hm]
      rfl
    · rw [normalizeDateL_shape2 m d y (hdig m hm) hm1 hm2 hd hd1 hd2 hy hy4,
        hzero m hm]
      rfl
  · constructor
    · rw [normalizeDateL_shape1 m d y hm hm1 hm2 (hdig d hd) hd1 hd2 hy hy4,
        hzero d hd]
      rfl
    · rw [normalizeDateL_shape2 m d y hm hm1 hm2 (hdig d hd) hd1 hd2 hy hy4,
        hzero d hd]
      rfl

/-- Witness for the zero-component law at `01/00/2020` (day all zeros)
and its hyphenated counterpart. -/
theorem normalize_date_zero_components_witness :
    normalizeDateL (['0', '1'] ++ '/' :: (['0', '0'] ++ '/' :: ['2', '0', '2', '0'])) =
      lstrip ['0', '1'] '0' ++ '/' :: ('/' :: (['2', '0', '2', '0'].drop 2)) ∧
    normalizeDateL (['2', '0', '2', '0'] ++ '-' :: (['0', '1'] ++ '-' :: ['0', '0'])) =
      lstrip ['0', '1'] '0' ++ '/' :: ('/' :: (['2', '0', '2', '0'].drop 2)) :=
  normalize_date_zero_components.2.1 ['0', '1'] ['0', '0'] ['2', '0', '2', '0']
    (by decide) (by decide) (by decide) (by decide) (by decide) (by decide)
    (by decide) (by decide)

/-! ### Claim theorems: row transformations -/

/-- C1 counterexample: with `r = ["x", ""]` and pair `(0, 1)`, the result
has `r'[1] = ""` although `r[0] ≠ r[1]`, so "`r'[t] == ""` iff
`r[s] == r[t]`" fails in the only-if direction. -/
theorem collapse_iff_counterexample :
    collapse_columns ["x", ""] [(0, 1)] = some ["x", ""] ∧
    (["x", ""] : List String)[1]? = some "" ∧
    ¬ ((["x", ""] : List String)[0]? = (["x", ""] : List String)[1]?) := by
  refine ⟨by decide, by decide, by decide⟩

/-- C1 (amended): collapsing a single in-range pair `(s, t)` leaves every
field other than `t` unchanged, the new `r'[t]` is `""` or the old
`r[t]`, and `r'[t] == ""` holds iff `r[s] == r[t]` or `r[t]` was already
empty. -/
theorem collapse_single_pair (r : List String) (s t : Nat)
    (hs : s < r.length) (ht : t < r.length) :
    ∃ r', collapse_columns r [(s, t)] = some r' ∧
      (r'[t]? = some "" ∨ r'[t]? = r[t]?) ∧
      (r'[t]? = some "" ↔ (r[s]? = r[t]? ∨ r[t]? = some "")) ∧
      (∀ j, j ≠ t → r'[j]? = r[j]?) := by
  have hvs : r[s]? = some r[s] := List.getElem?_eq_getElem hs
  have hvt : r[t]? = some r[t] := List.getElem?_eq_getElem ht
  refine ⟨r.set t (if r[s] = r[t] then "" else r[t]), ?_, ?_, ?_, ?_⟩
  · simp [collapse_columns, hvs, hvt]
  · have hset : (r.set t (if r[s] = r[t] then "" else r[t]))[t]? =
        some (if r[s] = r[t] then "" else r[t]) := List.getElem?_set_self ht
    by_cases he : r[s] = r[t]
    · left
      rw [hset, if_pos he]
    · right
      rw [hset, if_neg he, hvt]
  · have hset : (r.set t (if r[s] = r[t] then "" else r[t]))[t]? =
        some (if r[s] = r[t] then "" else r[t]) := List.getElem?_set_self ht
    constructor
    · intro hemp
      rw [hset] at hemp
      by_cases he : r[s] = r[t]
      · left
        rw [hvs, hvt, he]
      · right
        rw [if_neg he] at hemp
        simp at hemp
        rw [hvt, hemp]
    · intro hor
      rcases hor with ho | ho
      · have he : r[s] = r[t] := by
          rw [hvs, hvt] at ho
          simpa using ho
        rw [hset, if_pos he]
      · have he2 : r[t] = "" := by
          rw [hvt] at ho
          simpa using ho
        rw [hset]
        by_cases he : r[s] = r[t]
        · simp [he]
        · simp [if_neg he, he2]
  · intro j hj
    exact List.getElem?_set_ne (Ne.symm hj)

/-- Witness for the amended collapse law at `r = ["a", "a", "b"]`,
pair `(0, 1)`. -/
theorem collapse_single_pair_witness :
    ∃ r', collapse_columns ["a", "a", "b"] [(0, 1)] = some r' ∧
      (r'[1]? = some "" ∨ r'[1]? = (["a", "a", "b"] : List String)[1]?) ∧
      (r'[1]? = some "" ↔ ((["a", "a", "b"] : List String)[0]? =
        (["a", "a", "b"] : List String)[1]? ∨
        (["a", "a", "b"] : List String)[1]? = some "")) ∧
      (∀ j, j ≠ 1 → r'[j]? = (["a", "a", "b"] : List String)[j]?) :=
  collapse_single_pair ["a", "a", "b"] 0 1 (by decide) (by decide)

theorem reorder_all_in_range (row : List String) (idx : List Nat)
    (hidx : ∀ i ∈ idx, i < row.length) :
    ∃ out, reorder_columns_in_row row idx = some out ∧
      out.length = idx.length ∧
      ∀ k : Nat, out[k]? = idx[k]?.bind (fun i => row[i]?) := by
  induction idx with
  | nil => exact ⟨[], rfl, rfl, fun k => by simp⟩
  | cons i rest ih =>
    have hi : i < row.length := hidx i (by simp)
    obtain ⟨out, ho, hl, hg⟩ := ih (fun j hj => hidx j (by simp [hj]))
    refine ⟨row[i] :: out, ?_, by simp [hl], ?_⟩
    · simp [reorder_columns_in_row, List.getElem?_eq_getElem hi, ho]
    · intro k
      cases k with
      | zero => simp [List.getElem?_eq_getElem hi]
      | succ k => simpa using hg k

theorem reorder_out_of_range (row : List String) (idx : List Nat)
    (hidx : ∃ i ∈ idx, row.length ≤ i) :
    reorder_columns_in_row row idx = none := by
  induction idx with
  | nil => simp at hidx
  | cons i rest ih =>
    obtain ⟨j, hj, hge⟩ := hidx
    rcases List.mem_cons.mp hj with rfl | hj'
    · simp [reorder_columns_in_row, List.getElem?_eq_none hge]
    · cases hv : row[i]? with
      | none => simp [reorder_columns_in_row, hv]
      | some v => simp [reorder_columns_in_row, hv, ih ⟨j, hj', hge⟩]

/-- C8: projection builds the record whose `k`-th field is
`record[indices[k]]`, of length `len(indices)`, when every index is in
range; any out-of-range index makes it fail with the `IndexError`-class
condition (`none`), never clamped or skipped. -/
theorem reorder_columns_spec (row : List String) (idx : List Nat) :
    ((∀ i ∈ idx, i < row.length) →
      ∃ out, reorder_columns_in_row row idx = some out ∧
        out.length = idx.length ∧
        ∀ k : Nat, out[k]? = idx[k]?.bind (fun i => row[i]?)) ∧
    ((∃ i ∈ idx, row.length ≤ i) → reorder_columns_in_row row idx = none) :=
  ⟨reorder_all_in_range row idx, reorder_out_of_range row idx⟩

/-- Witness for the projection law: in-range projection of a 3-field row
through `[2, 0]`, and an out-of-range failure. -/
theorem reorder_columns_spec_witness :
    (∃ out, reorder_columns_in_row ["a", "b", "c"] [2, 0] = some out ∧
      out.length = ([2, 0] : List Nat).length ∧
      ∀ k : Nat, out[k]? = ([2, 0] : List Nat)[k]?.bind
        (fun i => (["a", "b", "c"] : List String)[i]?)) ∧
    reorder_columns_in_row ["a"] [1] = none :=
  ⟨(reorder_columns_spec ["a", "b", "c"] [2, 0]).1 (by decide),
   (reorder_columns_spec ["a"] [1]).2 ⟨1, by decide, by decide⟩⟩

/-! ### Claim theorems: the sorter -/

/-- C3: on nonempty input the sorter keeps the first line in place and
emits the remaining lines as a permutation sorted lexicographically,
ascending when `reverse` is false and descending when it is true. -/
theorem csv_sort_spec (lines : List String) (reverse : Bool) (h : lines ≠ []) :
    ∃ out, csv_sort lines reverse = some out ∧
      out.head? = lines.head? ∧
      out.tail.Perm lines.tail ∧
      (reverse = false → out.tail.Sorted (fun a b : String => a ≤ b)) ∧
      (reverse = true → out.tail.Sorted (fun a b : String => b ≤ a)) := by
  match lines with
  | [] => exact absurd rfl h
  | r0 :: rest =>
    cases reverse
    · refine ⟨r0 :: List.insertionSort (fun a b : String => a ≤ b) rest,
        rfl, rfl, ?_, ?_, ?_⟩
      · simpa using List.perm_insertionSort (fun a b : String => a ≤ b) rest
      · intro _
        simpa using List.sorted_insertionSort (fun a b : String => a ≤ b) rest
      · intro hc
        exact Bool.noConfusion hc
    · refine ⟨r0 :: List.insertionSort (fun a b : String => b ≤ a) rest,
        rfl, rfl, ?_, ?_, ?_⟩
      · simpa using List.perm_insertionSort (fun a b : String => b ≤ a) rest
      · intro hc
        exact Bool.noConfusion hc
      · intro _
        simpa using List.sorted_insertionSort (fun a b : String => b ≤ a) rest

/-- Witness for the sorter law on the concrete file `["h", "b", "a"]`
sorted descending. -/
theorem csv_sort_spec_witness :
    ∃ out, csv_sort ["h", "b", "a"] true = some out ∧
      out.head? = (["h", "b", "a"] : List String).head? ∧
      out.tail.Perm (["h", "b", "a"] : List String).tail ∧
      (true = false → out.tail.Sorted (fun a b : String => a ≤ b)) ∧
      (true = true → out.tail.Sorted (fun a b : String => b ≤ a)) :=
  csv_sort_spec ["h", "b", "a"] true (by decide)

/-- C9: the sorter indexes `rows[0]`, so zero input lines fail with the
`IndexError`-class condition (`none`) instead of producing empty output;
any nonempty input succeeds. -/
theorem csv_sort_empty_input :
    (∀ reverse : Bool, csv_sort [] reverse = none) ∧
    (∀ (lines : List String) (reverse : Bool), lines ≠ [] →
      (csv_sort lines reverse).isSome = true) := by
  refine ⟨fun _ => rfl, fun lines reverse hl => ?_⟩
  match lines with
  | [] => exact absurd rfl hl
  | a :: rest => simp [csv_sort]

/-- Witness for the empty-input law. -/
theorem csv_sort_empty_input_witness :
    csv_sort [] true = none ∧ (csv_sort ["x"] true).isSome = true :=
  ⟨csv_sort_empty_input.1 true, csv_sort_empty_input.2 ["x"] true (by decide)⟩

/-! ### Claim theorems: the full run -/

/-- C2 counterexample: with all options absent, the final artifact of a
run over header `h` and data rows `a`, `b` is `h, b, a` — descending,
not ascending. -/
theorem do_csv_normalize_not_ascending :
    do_csv_normalize [["h"], ["a"], ["b"]] ⟨none, none, none⟩ =
      some ["h\r\n", "b\r\n", "a\r\n"] ∧
    ¬ (["h\r\n", "b\r\n", "a\r\n"] : List String).tail.Sorted
        (fun a b : String => a ≤ b) := by
  constructor
  · decide
  · intro hs
    simp only [List.tail_cons] at hs
    have hle := List.rel_of_sorted_cons hs "a\r\n" (by simp)
    rw [String.le_iff_toList_le] at hle
    exact absurd hle (by decide)

/-- C2 (amended): `do_csv_normalize` accepts no sort-direction flag in
its per-run options; every successful run's final artifact is the header
line followed by the remaining lines in descending lexicographic order,
via `csv_sort(out, out_sorted, reverse=True)`. -/
theorem do_csv_normalize_sorted_tail (rows : List (List String))
    (opts : ColumnOptions) (out : List String)
    (h : do_csv_normalize rows opts = some out) :
    out.tail.Sorted (fun a b : String => b ≤ a) := by
  have hex : ∃ lines, csv_sort lines true = some out := by
    unfold do_csv_normalize at h
    split at h
    · exact ⟨[], h⟩
    · split at h
      · exact ⟨_, h⟩
      · exact Option.noConfusion h
  obtain ⟨lines, hl⟩ := hex
  match lines, hl with
  | [], hl => exact Option.noConfusion hl
  | l0 :: rest, hl =>
    have hl2 : some (l0 :: List.insertionSort (fun a b : String => b ≤ a) rest) =
        some out := hl
    rw [← Option.some.inj hl2]
    simpa using List.sorted_insertionSort (fun a b : String => b ≤ a) rest

/-- Witness for the descending-artifact law on the run from the
counterexample input. -/
theorem do_csv_normalize_sorted_tail_witness :
    (["h\r\n", "b\r\n", "a\r\n"] : List String).tail.Sorted
      (fun a b : String => b ≤ a) :=
  do_csv_normalize_sorted_tail [["h"], ["a"], ["b"]] ⟨none, none, none⟩
    ["h\r\n", "b\r\n", "a\r\n"] (by decide)

end CsvNormalize
